import Mathlib

/-!
Verification of the Dataset-Management-Toolkit repository.

Shallow embedding of the two tools:
* `src/Remap.py` : `remap_by_name` (YOLO label class-index remapper) and its
  per-line / per-file / per-directory structure, plus the filesystem effects
  it performs (output-directory creation, one-time backup copy, file writes).
* `src/rename.py` : `rename_images` (sequential image renamer) and `main`
  (its command-line wrapper).

Modelling conventions:
* Strings are Lean `String`s; a file's content is its list of lines (the
  Python code reads text, applies `splitlines`, and joins output lines with
  a single newline character, so a line never contains a line terminator).
* Python `str.split()` / `str.strip()` whitespace is modelled over the ASCII
  whitespace characters; Python `int()` parsing is modelled for ASCII digit
  tokens with an optional sign and underscore digit separators.
* Machine integers do not occur: Python integers are unbounded, as are Lean
  `Int`/`Nat`.
* Filesystem state is an association list from (directory, filename) to file
  content; the engine's side effects are reified as an `Effect` trace in the
  order the Python code performs them.
-/

/-- Python ASCII whitespace, as recognized by `str.split()` / `str.strip()`
(restricted to the ASCII range; label files are ASCII text). -/
def pyIsSpace (c : Char) : Bool :=
  c = ' ' || c = '\t' || c = '\n' || c = '\r' || c = '\x0b' || c = '\x0c'

/-- Accumulator-based core of Python `str.split()` (split on whitespace runs,
no empty tokens). The accumulator holds the current token reversed. -/
def pySplitAux : List Char → List Char → List String
  | [], acc => if acc.isEmpty then [] else [String.mk acc.reverse]
  | c :: cs, acc =>
    if pyIsSpace c then
      if acc.isEmpty then pySplitAux cs [] else String.mk acc.reverse :: pySplitAux cs []
    else pySplitAux cs (c :: acc)

/-- Python `ln.split()` : split on runs of whitespace, discarding empties. -/
def pySplit (s : String) : List String :=
  pySplitAux s.data []

/-- Character-list core of `' '.join(...)`. -/
def joinChars : List (List Char) → List Char
  | [] => []
  | [t] => t
  | t :: ts => t ++ ' ' :: joinChars ts

/-- Python `' '.join(tokens)`. -/
def pyJoin (ts : List String) : String :=
  String.mk (joinChars (ts.map String.data))

/-- Python truthiness of `ln.strip()` : the line is blank iff every character
is whitespace. -/
def isBlank (s : String) : Bool :=
  s.data.all pyIsSpace

/-- Digit run of a Python integer literal after the optional sign: digits with
single underscores allowed between digits (`int("1_0") = 10`), accumulating
the value most-significant-first. -/
def pyDigitsAux : List Char → Nat → Option Nat
  | [], acc => some acc
  | c :: cs, acc =>
    if c = '_' then
      match cs with
      | [] => none
      | c2 :: cs2 =>
        if c2.isDigit then pyDigitsAux cs2 (acc * 10 + (c2.toNat - 48)) else none
    else if c.isDigit then pyDigitsAux cs (acc * 10 + (c.toNat - 48)) else none

/-- Nonempty digit run: first character must be a digit. -/
def pyParseDigits : List Char → Option Nat
  | [] => none
  | c :: cs => if c.isDigit then pyDigitsAux cs (c.toNat - 48) else none

/-- Character-level core of Python `int(token)`: optional sign followed by
a digit run. -/
def pyParseIntChars : List Char → Option Int
  | [] => none
  | c :: cs =>
    if c = '+' then (pyParseDigits cs).map Int.ofNat
    else if c = '-' then (pyParseDigits cs).map (fun n => -(n : Int))
    else (pyParseDigits (c :: cs)).map Int.ofNat

/-- Python `int(token)` for a whitespace-free token (ASCII digits): optional
sign followed by a digit run with optional single underscores. -/
def pyParseInt (s : String) : Option Int :=
  pyParseIntChars s.data

/-- Little-endian decimal digits of `n`, with fuel (structural recursion so
that the kernel can evaluate it). -/
def digitsRev : Nat → Nat → List Nat
  | 0, _ => []
  | fuel + 1, n => if n = 0 then [] else (n % 10) :: digitsRev fuel (n / 10)

/-- Most-significant-first decimal digit values of `n` (Python `str(n)` digit
by digit; `0` renders as the single digit `0`). -/
def natDigitsN (n : Nat) : List Nat :=
  if n = 0 then [0] else (digitsRev n n).reverse

/-- Python `str(n)` for a nonnegative integer. -/
def natStr (n : Nat) : String :=
  String.mk ((natDigitsN n).map (fun d => Char.ofNat (48 + d)))

/-- The `old_index_to_name.get(old_idx)` lookup of `Remap.py` line 80: the
dictionary built from `enumerate(old)` has exactly the keys `0..len(old)-1`. -/
def listGetInt (l : List String) (i : Int) : Option String :=
  if 0 ≤ i then l.get? i.toNat else none

/-- The `name_to_new` dictionary of `Remap.py` line 56, built by
`{name: idx for idx, name in enumerate(new)}` : later duplicates overwrite
earlier ones, so lookup returns the index of the LAST occurrence. -/
def nameToNewIdx : List String → String → Option Nat
  | [], _ => none
  | n :: ns, name =>
    match nameToNewIdx ns name with
    | some j => some (j + 1)
    | none => if n = name then some 0 else none

/-- One line of `remap_by_name` (`Remap.py` lines 73-93), applied to a
non-blank line: returns the emitted line and whether the `changed` counter
is incremented for it (`new_line != ln`). -/
def remapLine (old new : List String) (ln : String) : String × Bool :=
  match pySplit ln with
  | [] => (ln, false)
  | p :: rest =>
    if (p :: rest).length < 5 then (ln, false)
    else
      match pyParseInt p with
      | none => (ln, false)
      | some oi =>
        match listGetInt old oi with
        | none => (ln, false)
        | some name =>
          match nameToNewIdx new name with
          | none => (ln, false)
          | some ni =>
            let nl := pyJoin (natStr ni :: rest)
            (nl, decide (nl ≠ ln))

/-- Result of processing the lines of one label file. -/
structure FileOut where
  outLines : List String
  lineCount : Nat
  changedCount : Nat
  unchangedCount : Nat
deriving DecidableEq

/-- The per-file loop of `remap_by_name` (`Remap.py` lines 67-93): blank lines
are dropped and not counted; every other line is counted in `lines` and in
exactly one of `changed` / `unchanged`. -/
def processLines (old new : List String) : List String → FileOut
  | [] => ⟨[], 0, 0, 0⟩
  | l :: ls =>
    let r := processLines old new ls
    if isBlank l then r
    else
      let p := remapLine old new l
      ⟨p.1 :: r.outLines, r.lineCount + 1,
        (if p.2 then r.changedCount + 1 else r.changedCount),
        (if p.2 then r.unchangedCount else r.unchangedCount + 1)⟩

/-- The statistics dictionary returned by `remap_by_name`. -/
structure Stats where
  files : Nat
  lines : Nat
  changed : Nat
  unchanged : Nat
deriving DecidableEq

/-- The per-directory loop of `remap_by_name` (`Remap.py` lines 62-94),
applied to the sorted list of `.txt` label files, each given as
(filename, list of lines): produces the mirrored output files and the
accumulated statistics. -/
def remapDir (old new : List String) : List (String × List String) → List (String × List String) × Stats
  | [] => ([], ⟨0, 0, 0, 0⟩)
  | (name, lines) :: fs =>
    let p := processLines old new lines
    let r := remapDir old new fs
    ((name, p.outLines) :: r.1,
      ⟨r.2.files + 1, r.2.lines + p.lineCount,
        r.2.changed + p.changedCount, r.2.unchanged + p.unchangedCount⟩)

/-- A filesystem side effect performed by `remap_by_name`, in the order the
code performs them: `out_dir.mkdir` (line 44), `shutil.copytree` for the
backup (line 49), and a text-file write (lines 94 and 97). -/
inductive Effect where
  | mkdirp (dir : String)
  | copyTree (src dst : String)
  | writeFile (dir name : String) (lines : List String)
deriving DecidableEq

/-- Outcome of a `remap_by_name` run: the trace of filesystem effects it
performed, and either the returned statistics or the raised error. -/
structure RunOutcome where
  effects : List Effect
  result : Except String Stats

/-- `remap_by_name` (`Remap.py` lines 37-98). Parameters reify the
filesystem facts the code queries: `labelsPresent` is the line-42 existence
check, `labelFiles` is the sorted list of `.txt` files of the label
directory with their lines, `backupExists` is the line-48 check, and
`oldCls` / `newCls` are the class files' contents (`none` models a missing
or unreadable class file, whose `open` raises at lines 54-55 AFTER the
directory creation and backup effects). -/
def remap_by_name (labelsName outName : String) (labelsPresent : Bool)
    (labelFiles : List (String × List String))
    (createBackup backupExists : Bool)
    (oldCls newCls : Option (List String)) : RunOutcome :=
  if labelsPresent = false then ⟨[], .error "Labels folder not found"⟩
  else
    let e1 : List Effect := [.mkdirp outName]
    let e2 : List Effect :=
      if createBackup && !backupExists then
        [.copyTree labelsName (labelsName ++ "_backup")]
      else []
    match oldCls with
    | none => ⟨e1 ++ e2, .error "class file not found"⟩
    | some old =>
      match newCls with
      | none => ⟨e1 ++ e2, .error "class file not found"⟩
      | some new =>
        let r := remapDir old new labelFiles
        ⟨e1 ++ e2
            ++ r.1.map (fun fc => Effect.writeFile outName fc.1 fc.2)
            ++ [Effect.writeFile outName "classes_mapped.txt" new],
          .ok r.2⟩

/-- Flat filesystem: (directory, filename) keyed file contents (as lines). -/
def FSys : Type := List ((String × String) × List String)

/-- Remove any entry with the given key. -/
def fsErase (fs : FSys) (k : String × String) : FSys :=
  fs.filter (fun e => e.1 ≠ k)

/-- Write (create or overwrite) one file. -/
def fsWrite (fs : FSys) (k : String × String) (v : List String) : FSys :=
  (k, v) :: fsErase fs k

/-- Read one file. -/
def fsLookup (fs : FSys) (k : String × String) : Option (List String) :=
  (fs.find? (fun e => e.1 = k)).map (fun e => e.2)

/-- All entries of one directory. -/
def dirEntries (fs : FSys) (d : String) : FSys :=
  fs.filter (fun e => e.1.1 = d)

/-- Apply one effect to the filesystem (`mkdir` does not change file
contents; `copytree` copies every file of `src` into `dst`). -/
def applyEffect (fs : FSys) : Effect → FSys
  | .mkdirp _ => fs
  | .copyTree src dst =>
    (dirEntries fs src).foldl (fun acc e => fsWrite acc (dst, e.1.2) e.2) fs
  | .writeFile d n v => fsWrite fs (d, n) v

/-- Apply a trace of effects in order. -/
def applyEffects (fs : FSys) (es : List Effect) : FSys :=
  es.foldl applyEffect fs

/-- Python `str.lower()` (ASCII model, as used on filename extensions). -/
def pyLower (s : String) : String :=
  String.mk (s.data.map Char.toLower)

/-- `pathlib.PurePath.suffix` of a plain filename: the substring from the
last dot, provided that dot is neither the first nor the last character;
otherwise the empty string. -/
def pySuffix (f : String) : String :=
  match f.data.reverse.findIdx? (fun c => c = '.') with
  | none => ""
  | some j =>
    let i := f.data.length - 1 - j
    if 0 < i && i + 1 < f.data.length then String.mk (f.data.drop i) else ""

/-- The hardcoded extension set of `rename_images` (`rename.py` line 23). -/
def image_extensions : List String :=
  [".jpg", ".jpeg", ".png", ".gif", ".bmp", ".tiff", ".webp", ".svg"]

/-- The filter of `rename.py` lines 36-40: keep files whose lowercased
suffix is in the hardcoded extension set. -/
def isImageFile (f : String) : Bool :=
  image_extensions.contains (pyLower (pySuffix f))

/-- Python `str(number).zfill(padding)` for a nonnegative number: left-pad
the decimal string with zeros up to the given width. -/
def zfill (s : String) (w : Nat) : String :=
  String.mk (List.replicate (w - s.data.length) '0' ++ s.data)

/-- The new filename built at `rename.py` lines 60-63 for the file at
position `i` of the sorted image list. -/
def targetName (pfx : String) (startNumber w i : Nat) (f : String) : String :=
  pfx ++ "_" ++ zfill (natStr (startNumber + i)) w ++ pySuffix f

/-- Strict lexicographic comparison of character lists by code point
(Python compares strings by code points). -/
def charsLt : List Char → List Char → Bool
  | [], [] => false
  | [], _ :: _ => true
  | _ :: _, [] => false
  | a :: as, b :: bs =>
    if a.toNat < b.toNat then true
    else if b.toNat < a.toNat then false
    else charsLt as bs

/-- Boolean `a <= b` on strings, lexicographic by code point. -/
def strLeb (a b : String) : Bool :=
  !(charsLt b.data a.data)

/-- Stable insertion into a sorted list. -/
def orderedInsertStr (a : String) : List String → List String
  | [] => [a]
  | b :: bs => if strLeb a b then a :: b :: bs else b :: orderedInsertStr a bs

/-- Insertion sort by `strLeb` (models Python `list.sort()` on strings). -/
def sortStrings : List String → List String
  | [] => []
  | a :: as => orderedInsertStr a (sortStrings as)

/-- The sorted image-file list of `rename.py` lines 36-47 (lexicographic
sort of the filtered filenames). -/
def sortImages (files : List String) : List String :=
  sortStrings (files.filter isImageFile)

/-- The zero-padding width of `rename.py` lines 52-54:
`len(str(start_number + total_files - 1))`. -/
def renamePadding (startNumber total : Nat) : Nat :=
  (natStr (startNumber + total - 1)).length

/-- The rename loop of `rename.py` lines 58-81 over the remaining sorted
image files, carrying the position `i`, the current set of directory
entries `cur`, and `renamed_count`. A file is skipped when its target name
exists and is a different file (lines 69-71); in dry-run mode nothing is
renamed and — exactly as in the code — `renamed_count` is never
incremented (lines 73-79). -/
def renameLoop (pfx : String) (startNumber w : Nat) (dryRun : Bool) :
    List String → Nat → List String → Nat → List String × Nat
  | [], _, cur, cnt => (cur, cnt)
  | old :: rest, i, cur, cnt =>
    let newName := targetName pfx startNumber w i old
    if newName ∈ cur && newName ≠ old then
      renameLoop pfx startNumber w dryRun rest (i + 1) cur cnt
    else if dryRun then
      renameLoop pfx startNumber w dryRun rest (i + 1) cur cnt
    else
      renameLoop pfx startNumber w dryRun rest (i + 1) (newName :: cur.erase old) (cnt + 1)

/-- `rename_images` (`rename.py` lines 11-86). `files` is the directory
listing (direct-child plain files); returns the final directory listing
and the final `renamed_count`. The model assumes each attempted
`os.rename` succeeds (no modelling of per-file OS failures). -/
def rename_images (files : List String) (startNumber : Nat) (pfx : String)
    (dryRun : Bool) : List String × Nat :=
  let imageFiles := files.filter isImageFile
  if imageFiles.isEmpty then (files, 0)
  else
    let sorted := sortImages files
    let w := renamePadding startNumber sorted.length
    renameLoop pfx startNumber w dryRun sorted 0 files 0

/-- The target names, in sorted order, assigned from position `k` on. -/
def targetsFrom (pfx : String) (startNumber w k : Nat) : List String → List String
  | [] => []
  | f :: fs => targetName pfx startNumber w k f :: targetsFrom pfx startNumber w (k + 1) fs

/-- A label line satisfies all validity conditions of `remap_by_name` with
respect to the class lists `old` and `new`: at least 5 tokens, integer
first token, the integer is a valid position in `old`, and the resolved
name occurs in `new`. -/
def lineOk (old new : List String) (ln : String) : Bool :=
  match pySplit ln with
  | [] => false
  | p :: rest =>
    !(decide ((p :: rest).length < 5)) &&
    (match pyParseInt p with
     | none => false
     | some oi =>
       match listGetInt old oi with
       | none => false
       | some name => (nameToNewIdx new name).isSome)

/-- Count of the non-blank lines of a list of label files. -/
def countNonBlank (fs : List (String × List String)) : Nat :=
  (fs.map (fun f => (f.2.filter (fun l => !isBlank l)).length)).sum

/-- The effect does not write into directory `L`. -/
def effAvoids (L : String) : Effect → Prop
  | .mkdirp _ => True
  | .copyTree _ dst => dst ≠ L
  | .writeFile d _ _ => d ≠ L

/-- The command-line default of `--extensions` (`rename.py` line 121). -/
def defaultCliExtensions : List String :=
  [".jpg", ".jpeg", ".png", ".gif", ".bmp", ".tiff", ".webp"]

/-- `main` (`rename.py` lines 88-139): parses an `--extensions` option
(default `defaultCliExtensions`) but calls `rename_images` without passing
it (line 139), so the user-supplied extension list is ignored. -/
def rename_main (files : List String) (startNumber : Nat) (pfx : String)
    (dryRun : Bool) (userExtensions : List String) : List String × Nat :=
  rename_images files startNumber pfx dryRun

/-- Horner step on digit values (decimal). -/
def natHorner (a d : Nat) : Nat := a * 10 + d

/-- Horner step on digit characters (decimal). -/
def charHorner (a : Nat) (c : Char) : Nat := a * 10 + (c.toNat - 48)

/-! ## Lemmas about `pySplit` and `pyJoin` -/

theorem isEmpty_false_of_ne_nil {l : List Char} (h : l ≠ []) : l.isEmpty = false := by
  cases l with
  | nil => exact absurd rfl h
  | cons a as => rfl

theorem pySplitAux_nil_eq (acc : List Char) :
    pySplitAux [] acc = if acc.isEmpty then [] else [String.mk acc.reverse] := rfl

theorem pySplitAux_cons_eq (c : Char) (cs acc : List Char) :
    pySplitAux (c :: cs) acc =
      if pyIsSpace c then
        if acc.isEmpty then pySplitAux cs [] else String.mk acc.reverse :: pySplitAux cs []
      else pySplitAux cs (c :: acc) := rfl

theorem pySplitAux_tokens : ∀ (cs acc : List Char),
    (∀ c ∈ acc, pyIsSpace c = false) →
    ∀ s ∈ pySplitAux cs acc, s.data ≠ [] ∧ ∀ c ∈ s.data, pyIsSpace c = false
  | [], acc, hacc, s, hs => by
    rw [pySplitAux_nil_eq] at hs
    by_cases h : acc = []
    · simp [h] at hs
    · rw [isEmpty_false_of_ne_nil h] at hs
      simp only [Bool.false_eq_true, if_false, List.mem_singleton] at hs
      subst hs
      refine ⟨?_, ?_⟩
      · simpa using h
      · intro c hc
        exact hacc c (by simpa using hc)
  | c :: cs, acc, hacc, s, hs => by
    rw [pySplitAux_cons_eq] at hs
    by_cases hsp : pyIsSpace c
    · simp only [hsp, if_true] at hs
      by_cases h : acc = []
      · simp only [h, List.isEmpty_nil, if_true] at hs
        exact pySplitAux_tokens cs [] (by simp) s hs
      · rw [isEmpty_false_of_ne_nil h] at hs
        simp only [Bool.false_eq_true, if_false, List.mem_cons] at hs
        rcases hs with h1 | h1
        · subst h1
          refine ⟨?_, ?_⟩
          · simpa using h
          · intro d hd
            exact hacc d (by simpa using hd)
        · exact pySplitAux_tokens cs [] (by simp) s h1
    · simp only [Bool.not_eq_true] at hsp
      simp only [hsp, Bool.false_eq_true, if_false] at hs
      refine pySplitAux_tokens cs (c :: acc) ?_ s hs
      intro d hd
      rcases List.mem_cons.mp hd with h1 | h1
      · subst h1; exact hsp
      · exact hacc d h1

theorem pySplit_tokens (ln : String) :
    ∀ s ∈ pySplit ln, s.data ≠ [] ∧ ∀ c ∈ s.data, pyIsSpace c = false :=
  pySplitAux_tokens ln.data [] (by simp)

theorem pySplitAux_token_append : ∀ (t cs acc : List Char),
    (∀ c ∈ t, pyIsSpace c = false) →
    pySplitAux (t ++ cs) acc = pySplitAux cs (t.reverse ++ acc)
  | [], cs, acc, _ => by simp
  | c :: t, cs, acc, h => by
    have hc : pyIsSpace c = false := h c (by simp)
    have ht : ∀ d ∈ t, pyIsSpace d = false := fun d hd => h d (by simp [hd])
    rw [List.cons_append, pySplitAux_cons_eq]
    simp only [hc, Bool.false_eq_true, if_false]
    rw [pySplitAux_token_append t cs (c :: acc) ht]
    simp

theorem pySplit_join : ∀ ts : List String,
    (∀ t ∈ ts, t.data ≠ [] ∧ ∀ c ∈ t.data, pyIsSpace c = false) →
    pySplit (pyJoin ts) = ts
  | [], _ => by simp [pySplit, pyJoin, joinChars, pySplitAux_nil_eq]
  | [t], h => by
    obtain ⟨hne, hns⟩ := h t (by simp)
    simp only [pySplit, pyJoin, joinChars, List.map_cons, List.map_nil]
    rw [show t.data = t.data ++ ([] : List Char) by simp]
    rw [pySplitAux_token_append t.data [] [] hns]
    rw [pySplitAux_nil_eq]
    have hemp : (t.data.reverse ++ ([] : List Char)).isEmpty = false := by
      refine isEmpty_false_of_ne_nil ?_
      simpa using hne
    rw [hemp]
    simp
  | t :: t2 :: ts, h => by
    obtain ⟨hne, hns⟩ := h t (by simp)
    have hrest : ∀ u ∈ t2 :: ts, u.data ≠ [] ∧ ∀ c ∈ u.data, pyIsSpace c = false :=
      fun u hu => h u (by simp [List.mem_cons.mp hu])
    have hIH := pySplit_join (t2 :: ts) hrest
    simp only [pySplit, pyJoin, List.map_cons] at hIH ⊢
    rw [show joinChars (t.data :: t2.data :: (ts.map String.data)) =
          t.data ++ ' ' :: joinChars (t2.data :: ts.map String.data) from rfl]
    rw [pySplitAux_token_append t.data _ [] hns]
    rw [pySplitAux_cons_eq]
    have hsp : pyIsSpace ' ' = true := by decide
    have hemp : (t.data.reverse ++ ([] : List Char)).isEmpty = false := by
      refine isEmpty_false_of_ne_nil ?_
      simpa using hne
    rw [hsp, if_pos rfl, hemp]
    simp only [Bool.false_eq_true, if_false]
    rw [hIH]
    simp

/-! ## Lemmas about `natStr` and decimal digits -/

theorem digitChar_facts : ∀ d, d < 10 →
    (Char.ofNat (48 + d)).toNat = 48 + d ∧
    (Char.ofNat (48 + d)).isDigit = true ∧
    pyIsSpace (Char.ofNat (48 + d)) = false ∧
    Char.ofNat (48 + d) ≠ '+' ∧ Char.ofNat (48 + d) ≠ '-' ∧
    Char.ofNat (48 + d) ≠ '_' := by decide

theorem digitsRev_eq_digits : ∀ (fuel n : Nat), n ≤ fuel →
    digitsRev fuel n = Nat.digits 10 n
  | 0, n, h => by
    have : n = 0 := Nat.le_zero.mp h
    subst this
    simp [digitsRev]
  | fuel + 1, n, h => by
    by_cases hn : n = 0
    · subst hn; simp [digitsRev]
    · have hdiv : n / 10 ≤ fuel := by
        have h1 : n / 10 < n := Nat.div_lt_self (Nat.pos_of_ne_zero hn) (by norm_num)
        omega
      rw [show digitsRev (fuel + 1) n = (n % 10) :: digitsRev fuel (n / 10) by
        simp [digitsRev, hn]]
      rw [digitsRev_eq_digits fuel (n / 10) hdiv]
      exact (Nat.digits_def' (by norm_num) (Nat.pos_of_ne_zero hn)).symm

theorem natDigitsN_eq (n : Nat) (hn : n ≠ 0) :
    natDigitsN n = (Nat.digits 10 n).reverse := by
  simp [natDigitsN, hn, digitsRev_eq_digits n n le_rfl]

theorem natDigitsN_ne_nil (n : Nat) : natDigitsN n ≠ [] := by
  by_cases hn : n = 0
  · subst hn; simp [natDigitsN]
  · rw [natDigitsN_eq n hn]
    simpa using Nat.digits_ne_nil_iff_ne_zero.mpr hn

theorem natDigitsN_lt (n : Nat) : ∀ d ∈ natDigitsN n, d < 10 := by
  intro d hd
  by_cases hn : n = 0
  · subst hn; simp [natDigitsN] at hd; omega
  · rw [natDigitsN_eq n hn] at hd
    exact Nat.digits_lt_base (by norm_num) (List.mem_reverse.mp hd)

theorem foldl_reverse_ofDigits : ∀ L : List Nat,
    L.reverse.foldl natHorner 0 = Nat.ofDigits 10 L
  | [] => by simp [Nat.ofDigits_nil]
  | d :: L => by
    rw [List.reverse_cons, List.foldl_append, foldl_reverse_ofDigits L]
    show natHorner (Nat.ofDigits 10 L) d = Nat.ofDigits 10 (d :: L)
    rw [Nat.ofDigits_cons]
    simp [natHorner]
    ring

theorem foldl_natDigitsN (n : Nat) : (natDigitsN n).foldl natHorner 0 = n := by
  by_cases hn : n = 0
  · subst hn; simp [natDigitsN, natHorner]
  · rw [natDigitsN_eq n hn, foldl_reverse_ofDigits, Nat.ofDigits_digits]

theorem natStr_data (n : Nat) :
    (natStr n).data = (natDigitsN n).map (fun d => Char.ofNat (48 + d)) := rfl

theorem natStr_chars (n : Nat) : ∀ c ∈ (natStr n).data,
    c.toNat - 48 < 10 ∧ c.isDigit = true ∧ pyIsSpace c = false ∧
    c ≠ '+' ∧ c ≠ '-' ∧ c ≠ '_' := by
  intro c hc
  rw [natStr_data] at hc
  obtain ⟨d, hd, rfl⟩ := List.mem_map.mp hc
  have hlt := natDigitsN_lt n d hd
  obtain ⟨h1, h2, h3, h4, h5, h6⟩ := digitChar_facts d hlt
  exact ⟨by omega, h2, h3, h4, h5, h6⟩

theorem natStr_ne_nil (n : Nat) : (natStr n).data ≠ [] := by
  rw [natStr_data]
  simpa using natDigitsN_ne_nil n

theorem foldl_charHorner_natStr (n : Nat) :
    (natStr n).data.foldl charHorner 0 = n := by
  rw [natStr_data, List.foldl_map]
  have : ∀ (L : List Nat), (∀ d ∈ L, d < 10) → ∀ a : Nat,
      L.foldl (fun x d => charHorner x (Char.ofNat (48 + d))) a = L.foldl natHorner a := by
    intro L
    induction L with
    | nil => intro _ a; rfl
    | cons d L ih =>
      intro hL a
      have hd := hL d (by simp)
      have := (digitChar_facts d hd).1
      simp only [List.foldl_cons]
      rw [show charHorner a (Char.ofNat (48 + d)) = natHorner a d by
        simp [charHorner, natHorner, this]]
      exact ih (fun e he => hL e (by simp [he])) _
  rw [this (natDigitsN n) (natDigitsN_lt n) 0, foldl_natDigitsN]

theorem foldl_charHorner_replicate_zero : ∀ (k : Nat) (cs : List Char),
    (List.replicate k '0' ++ cs).foldl charHorner 0 = cs.foldl charHorner 0
  | 0, cs => by simp
  | k + 1, cs => by
    rw [List.replicate_succ, List.cons_append, List.foldl_cons]
    have : charHorner 0 '0' = 0 := by decide
    rw [this]
    exact foldl_charHorner_replicate_zero k cs

theorem zfill_natStr_val (n w : Nat) :
    (zfill (natStr n) w).data.foldl charHorner 0 = n := by
  show (List.replicate (w - (natStr n).data.length) '0' ++ (natStr n).data).foldl charHorner 0 = n
  rw [foldl_charHorner_replicate_zero, foldl_charHorner_natStr]

theorem zfill_natStr_inj {a b w w' : Nat}
    (h : (zfill (natStr a) w).data = (zfill (natStr b) w').data) : a = b := by
  have ha := zfill_natStr_val a w
  have hb := zfill_natStr_val b w'
  rw [h] at ha
  omega

theorem zfill_length (s : String) (w : Nat) (h : s.data.length ≤ w) :
    (zfill s w).data.length = w := by
  show (List.replicate (w - s.data.length) '0' ++ s.data).length = w
  simp only [List.length_append, List.length_replicate]
  omega

theorem natStr_length_mono {a b : Nat} (h : a ≤ b) :
    (natStr a).data.length ≤ (natStr b).data.length := by
  rw [natStr_data, natStr_data]
  simp only [List.length_map]
  by_cases ha : a = 0
  · subst ha
    have := natDigitsN_ne_nil b
    simp only [natDigitsN, if_pos rfl, List.length_singleton]
    exact List.length_pos.mpr (natDigitsN_ne_nil b)
  · have hb : b ≠ 0 := by omega
    rw [natDigitsN_eq a ha, natDigitsN_eq b hb]
    simp only [List.length_reverse]
    rw [Nat.digits_len 10 a (by norm_num) ha, Nat.digits_len 10 b (by norm_num) hb]
    have hlog : Nat.log 10 a ≤ Nat.log 10 b := Nat.log_mono_right h
    omega

theorem pyDigitsAux_cons_digit {c : Char} (cs : List Char) (acc : Nat)
    (hne : ¬ c = '_') (hc : c.isDigit = true) :
    pyDigitsAux (c :: cs) acc = pyDigitsAux cs (acc * 10 + (c.toNat - 48)) := by
  conv_lhs => unfold pyDigitsAux
  rw [if_neg hne, if_pos hc]

theorem pyDigitsAux_all_digits : ∀ (cs : List Char) (acc : Nat),
    (∀ c ∈ cs, c.isDigit = true) →
    pyDigitsAux cs acc = some (cs.foldl charHorner acc)
  | [], acc, _ => by simp [pyDigitsAux]
  | c :: cs, acc, h => by
    have hc : c.isDigit = true := h c (by simp)
    have hne : ¬ (c = '_') := by
      intro heq
      rw [heq] at hc
      exact absurd hc (by decide)
    rw [pyDigitsAux_cons_digit cs acc hne hc]
    rw [pyDigitsAux_all_digits cs _ (fun d hd => h d (by simp [hd]))]
    rfl

theorem pyParseInt_natStr (n : Nat) : pyParseInt (natStr n) = some (n : Int) := by
  obtain ⟨c, cs, hcs⟩ := List.exists_cons_of_ne_nil (natStr_ne_nil n)
  have hc := natStr_chars n c (by rw [hcs]; simp)
  have hall : ∀ d ∈ c :: cs, d.isDigit = true := by
    intro d hd
    have := natStr_chars n d (by rw [hcs]; exact hd)
    exact this.2.1
  show pyParseIntChars (natStr n).data = some (n : Int)
  rw [hcs]
  rw [show pyParseIntChars (c :: cs) =
      if c = '+' then (pyParseDigits cs).map Int.ofNat
      else if c = '-' then (pyParseDigits cs).map (fun k => -(k : Int))
      else (pyParseDigits (c :: cs)).map Int.ofNat from rfl]
  rw [if_neg hc.2.2.2.1, if_neg hc.2.2.2.2.1]
  show (pyParseDigits (c :: cs)).map Int.ofNat = some (n : Int)
  rw [show pyParseDigits (c :: cs) =
      if c.isDigit then pyDigitsAux cs (c.toNat - 48) else none from rfl]
  rw [if_pos hc.2.1]
  rw [pyDigitsAux_all_digits cs _ (fun d hd => hall d (by simp [hd]))]
  have : cs.foldl charHorner (c.toNat - 48) = n := by
    have := foldl_charHorner_natStr n
    rw [hcs] at this
    simpa [charHorner] using this
  rw [this]
  rfl

/-! ## Lemmas about `nameToNewIdx` (the name-to-index dictionary) -/

theorem nameToNewIdx_cons_eq (n : String) (ns : List String) (name : String) :
    nameToNewIdx (n :: ns) name =
      match nameToNewIdx ns name with
      | some j => some (j + 1)
      | none => if n = name then some 0 else none := rfl

theorem nameToNewIdx_get? : ∀ (l : List String) (name : String) (k : Nat),
    nameToNewIdx l name = some k → l.get? k = some name
  | [], name, k, h => by simp [nameToNewIdx] at h
  | n :: ns, name, k, h => by
    rw [nameToNewIdx_cons_eq] at h
    cases hrec : nameToNewIdx ns name with
    | some j =>
      rw [hrec] at h
      have hk : k = j + 1 := by
        have := Option.some.inj h
        omega
      subst hk
      rw [List.get?_cons_succ]
      exact nameToNewIdx_get? ns name j hrec
    | none =>
      rw [hrec] at h
      by_cases hn : n = name
      · rw [if_pos hn] at h
        have hk : k = 0 := by
          have := Option.some.inj h
          omega
        subst hk
        rw [List.get?_cons_zero, hn]
      · rw [if_neg hn] at h
        exact absurd h (by simp)

theorem nameToNewIdx_none : ∀ (l : List String) (name : String),
    nameToNewIdx l name = none → name ∉ l
  | [], name, _ => by simp
  | n :: ns, name, h => by
    rw [nameToNewIdx_cons_eq] at h
    cases hrec : nameToNewIdx ns name with
    | some j => rw [hrec] at h; exact absurd h (by simp)
    | none =>
      rw [hrec] at h
      by_cases hn : n = name
      · rw [if_pos hn] at h; exact absurd h (by simp)
      · rw [if_neg hn] at h
        intro hmem
        rcases List.mem_cons.mp hmem with h1 | h1
        · exact hn h1.symm
        · exact nameToNewIdx_none ns name hrec h1

theorem nameToNewIdx_last : ∀ (l : List String) (name : String) (k : Nat),
    nameToNewIdx l name = some k → ∀ j, k < j → l.get? j ≠ some name
  | [], name, k, h => by simp [nameToNewIdx] at h
  | n :: ns, name, k, h => by
    rw [nameToNewIdx_cons_eq] at h
    cases hrec : nameToNewIdx ns name with
    | some j0 =>
      rw [hrec] at h
      have hk : k = j0 + 1 := by
        have := Option.some.inj h
        omega
      subst hk
      intro j hj
      match j, hj with
      | j' + 1, hj =>
        rw [List.get?_cons_succ]
        exact nameToNewIdx_last ns name j0 hrec j' (by omega)
    | none =>
      rw [hrec] at h
      by_cases hn : n = name
      · rw [if_pos hn] at h
        have hk : k = 0 := by
          have := Option.some.inj h
          omega
        subst hk
        intro j hj
        match j, hj with
        | j' + 1, _ =>
          rw [List.get?_cons_succ]
          intro hcontra
          exact nameToNewIdx_none ns name hrec (List.get?_mem hcontra)
      · rw [if_neg hn] at h
        exact absurd h (by simp)

theorem nameToNewIdx_of_last : ∀ (l : List String) (name : String) (k : Nat),
    l.get? k = some name → (∀ j, k < j → l.get? j ≠ some name) →
    nameToNewIdx l name = some k
  | [], name, k, hk, _ => by simp at hk
  | n :: ns, name, 0, hk, hlast => by
    rw [List.get?_cons_zero] at hk
    have hn : n = name := Option.some.inj hk
    have hrec : nameToNewIdx ns name = none := by
      cases hrec : nameToNewIdx ns name with
      | none => rfl
      | some j =>
        have := nameToNewIdx_get? ns name j hrec
        exact absurd (by rw [List.get?_cons_succ]; exact this : (n :: ns).get? (j + 1) = some name)
          (hlast (j + 1) (by omega))
    rw [nameToNewIdx_cons_eq, hrec, if_pos hn]
  | n :: ns, name, k + 1, hk, hlast => by
    rw [List.get?_cons_succ] at hk
    have hlast' : ∀ j, k < j → ns.get? j ≠ some name := by
      intro j hj hcontra
      exact hlast (j + 1) (by omega) (by rw [List.get?_cons_succ]; exact hcontra)
    rw [nameToNewIdx_cons_eq, nameToNewIdx_of_last ns name k hk hlast']

theorem nameToNewIdx_of_nodup (l : List String) (name : String) (k : Nat)
    (hnd : l.Nodup) (hk : l.get? k = some name) : nameToNewIdx l name = some k := by
  refine nameToNewIdx_of_last l name k hk ?_
  intro j hj hcontra
  obtain ⟨hklt, hkget⟩ := List.get?_eq_some.mp hk
  obtain ⟨hjlt, hjget⟩ := List.get?_eq_some.mp hcontra
  have : (⟨k, hklt⟩ : Fin l.length) = ⟨j, hjlt⟩ :=
    hnd.get_inj_iff.mp (by rw [hkget, hjget])
  have : k = j := by
    have := Fin.mk.injEq k hklt j hjlt ▸ congrArg Fin.val this
    simpa using this
  omega

/-! ## Lemmas about `remapLine` -/

theorem remapLine_nil (old new : List String) (ln : String)
    (hsplit : pySplit ln = []) : remapLine old new ln = (ln, false) := by
  unfold remapLine
  rw [hsplit]

theorem remapLine_cons (old new : List String) (ln p : String) (rest : List String)
    (hsplit : pySplit ln = p :: rest) :
    remapLine old new ln =
      if (p :: rest).length < 5 then (ln, false)
      else
        match pyParseInt p with
        | none => (ln, false)
        | some oi =>
          match listGetInt old oi with
          | none => (ln, false)
          | some name =>
            match nameToNewIdx new name with
            | none => (ln, false)
            | some ni => (pyJoin (natStr ni :: rest), decide (pyJoin (natStr ni :: rest) ≠ ln)) := by
  unfold remapLine
  rw [hsplit]

theorem remapLine_short (old new : List String) (ln : String)
    (hlen : (pySplit ln).length < 5) : remapLine old new ln = (ln, false) := by
  cases hsplit : pySplit ln with
  | nil => exact remapLine_nil old new ln hsplit
  | cons p rest =>
    rw [remapLine_cons old new ln p rest hsplit, if_pos (hsplit ▸ hlen)]

theorem remapLine_noparse (old new : List String) (ln p : String) (rest : List String)
    (hsplit : pySplit ln = p :: rest) (hparse : pyParseInt p = none) :
    remapLine old new ln = (ln, false) := by
  rw [remapLine_cons old new ln p rest hsplit]
  by_cases hlen : (p :: rest).length < 5
  · rw [if_pos hlen]
  · rw [if_neg hlen]
    simp only [hparse]

theorem remapLine_noname (old new : List String) (ln p : String) (rest : List String)
    (oi : Int) (hsplit : pySplit ln = p :: rest) (hparse : pyParseInt p = some oi)
    (hget : listGetInt old oi = none) :
    remapLine old new ln = (ln, false) := by
  rw [remapLine_cons old new ln p rest hsplit]
  by_cases hlen : (p :: rest).length < 5
  · rw [if_pos hlen]
  · rw [if_neg hlen]
    simp only [hparse, hget]

theorem remapLine_nonew (old new : List String) (ln p : String) (rest : List String)
    (oi : Int) (name : String) (hsplit : pySplit ln = p :: rest)
    (hparse : pyParseInt p = some oi) (hget : listGetInt old oi = some name)
    (hni : nameToNewIdx new name = none) :
    remapLine old new ln = (ln, false) := by
  rw [remapLine_cons old new ln p rest hsplit]
  by_cases hlen : (p :: rest).length < 5
  · rw [if_pos hlen]
  · rw [if_neg hlen]
    simp only [hparse, hget, hni]

theorem remapLine_rewrite (old new : List String) (ln p : String) (rest : List String)
    (oi : Int) (name : String) (ni : Nat)
    (hsplit : pySplit ln = p :: rest)
    (hlen : ¬ (p :: rest).length < 5)
    (hparse : pyParseInt p = some oi)
    (hget : listGetInt old oi = some name)
    (hni : nameToNewIdx new name = some ni) :
    remapLine old new ln =
      (pyJoin (natStr ni :: rest), decide (pyJoin (natStr ni :: rest) ≠ ln)) := by
  rw [remapLine_cons old new ln p rest hsplit]
  rw [if_neg hlen]
  simp only [hparse, hget, hni]

theorem remapLine_changed_inv (old new : List String) (ln : String)
    (h : (remapLine old new ln).2 = true) :
    ∃ p rest oi name ni, pySplit ln = p :: rest ∧ ¬ (p :: rest).length < 5 ∧
      pyParseInt p = some oi ∧ listGetInt old oi = some name ∧
      nameToNewIdx new name = some ni ∧
      (remapLine old new ln).1 = pyJoin (natStr ni :: rest) ∧
      pyJoin (natStr ni :: rest) ≠ ln := by
  cases hsplit : pySplit ln with
  | nil => rw [remapLine_nil old new ln hsplit] at h; exact absurd h (by simp)
  | cons p rest =>
    by_cases hlen : (p :: rest).length < 5
    · rw [remapLine_short old new ln (by rw [hsplit]; exact hlen)] at h
      exact absurd h (by simp)
    · cases hparse : pyParseInt p with
      | none =>
        rw [remapLine_noparse old new ln p rest hsplit hparse] at h
        exact absurd h (by simp)
      | some oi =>
        cases hget : listGetInt old oi with
        | none =>
          rw [remapLine_noname old new ln p rest oi hsplit hparse hget] at h
          exact absurd h (by simp)
        | some name =>
          cases hni : nameToNewIdx new name with
          | none =>
            rw [remapLine_nonew old new ln p rest oi name hsplit hparse hget hni] at h
            exact absurd h (by simp)
          | some ni =>
            have heq := remapLine_rewrite old new ln p rest oi name ni hsplit hlen hparse hget hni
            rw [heq] at h
            have hne : pyJoin (natStr ni :: rest) ≠ ln := by simpa using h
            exact ⟨p, rest, oi, name, ni, rfl, hlen, hparse, hget, hni,
              by rw [heq], hne⟩

theorem isBlank_join_false (t : String) (ts : List String)
    (hne : t.data ≠ []) (hns : ∀ c ∈ t.data, pyIsSpace c = false) :
    isBlank (pyJoin (t :: ts)) = false := by
  obtain ⟨c, cs, hcs⟩ := List.exists_cons_of_ne_nil hne
  have hc : pyIsSpace c = false := hns c (by rw [hcs]; simp)
  show (pyJoin (t :: ts)).data.all pyIsSpace = false
  have hdata : (pyJoin (t :: ts)).data = joinChars (t.data :: ts.map String.data) := rfl
  rw [hdata]
  refine List.all_eq_false.mpr ⟨c, ?_, by simp [hc]⟩
  cases ts with
  | nil =>
    show c ∈ joinChars [t.data]
    rw [show joinChars [t.data] = t.data from rfl, hcs]
    simp
  | cons u us =>
    show c ∈ joinChars (t.data :: u.data :: us.map String.data)
    rw [show joinChars (t.data :: u.data :: us.map String.data) =
        t.data ++ ' ' :: joinChars (u.data :: us.map String.data) from rfl]
    rw [hcs]
    simp

theorem remapLine_stable (new : List String) (rest : List String) (name : String) (ni : Nat)
    (hrest : ∀ t ∈ rest, t.data ≠ [] ∧ ∀ c ∈ t.data, pyIsSpace c = false)
    (hlen : ¬ (natStr ni :: rest).length < 5)
    (hni : nameToNewIdx new name = some ni) :
    remapLine new new (pyJoin (natStr ni :: rest)) = (pyJoin (natStr ni :: rest), false) := by
  have htoks : ∀ t ∈ natStr ni :: rest, t.data ≠ [] ∧ ∀ c ∈ t.data, pyIsSpace c = false := by
    intro t ht
    rcases List.mem_cons.mp ht with h1 | h1
    · subst h1
      exact ⟨natStr_ne_nil ni, fun c hc => (natStr_chars ni c hc).2.2.1⟩
    · exact hrest t h1
  have hsplit : pySplit (pyJoin (natStr ni :: rest)) = natStr ni :: rest :=
    pySplit_join _ htoks
  have hget : listGetInt new ((ni : Nat) : Int) = some name := by
    unfold listGetInt
    rw [if_pos (by omega)]
    rw [show ((ni : Nat) : Int).toNat = ni from rfl]
    exact nameToNewIdx_get? new name ni hni
  have := remapLine_rewrite new new (pyJoin (natStr ni :: rest)) (natStr ni) rest
    ((ni : Nat) : Int) name ni hsplit hlen (pyParseInt_natStr ni) hget hni
  rw [this]
  simp

theorem lineOk_cons (old new : List String) (ln p : String) (rest : List String)
    (hsplit : pySplit ln = p :: rest) :
    lineOk old new ln =
      (!(decide ((p :: rest).length < 5)) &&
        (match pyParseInt p with
         | none => false
         | some oi =>
           match listGetInt old oi with
           | none => false
           | some name => (nameToNewIdx new name).isSome)) := by
  unfold lineOk
  rw [hsplit]

theorem lineOk_inv (old new : List String) (ln : String) (h : lineOk old new ln = true) :
    ∃ p rest oi name ni, pySplit ln = p :: rest ∧ ¬ (p :: rest).length < 5 ∧
      pyParseInt p = some oi ∧ listGetInt old oi = some name ∧
      nameToNewIdx new name = some ni := by
  cases hsplit : pySplit ln with
  | nil =>
    unfold lineOk at h
    rw [hsplit] at h
    exact absurd h (by simp)
  | cons p rest =>
    rw [lineOk_cons old new ln p rest hsplit] at h
    cases hparse : pyParseInt p with
    | none => simp [hparse] at h
    | some oi =>
      simp only [hparse] at h
      cases hget : listGetInt old oi with
      | none => simp [hget] at h
      | some name =>
        simp only [hget] at h
        cases hni : nameToNewIdx new name with
        | none => simp [hni] at h
        | some ni =>
          simp only [hni, Option.isSome_some, Bool.and_true] at h
          have hlen : ¬ (p :: rest).length < 5 := by simpa using h
          exact ⟨p, rest, oi, name, ni, rfl, hlen, hparse, hget, hni⟩

theorem remapLine_step_stable (old new : List String) (ln : String)
    (h : lineOk old new ln = true) :
    remapLine new new (remapLine old new ln).1 = ((remapLine old new ln).1, false) ∧
    isBlank (remapLine old new ln).1 = false := by
  obtain ⟨p, rest, oi, name, ni, hsplit, hlen, hparse, hget, hni⟩ := lineOk_inv old new ln h
  have heq := remapLine_rewrite old new ln p rest oi name ni hsplit hlen hparse hget hni
  have hrest : ∀ t ∈ rest, t.data ≠ [] ∧ ∀ c ∈ t.data, pyIsSpace c = false := by
    intro t ht
    exact pySplit_tokens ln t (by rw [hsplit]; simp [ht])
  have hlen' : ¬ (natStr ni :: rest).length < 5 := by
    simp only [List.length_cons] at hlen ⊢
    exact hlen
  constructor
  · rw [heq]
    exact remapLine_stable new rest name ni hrest hlen' hni
  · rw [heq]
    exact isBlank_join_false (natStr ni) rest (natStr_ne_nil ni)
      (fun c hc => (natStr_chars ni c hc).2.2.1)

/-! ## Lemmas about `processLines` and `remapDir` -/

theorem processLines_cons (old new : List String) (l : String) (ls : List String) :
    processLines old new (l :: ls) =
      if isBlank l then processLines old new ls
      else ⟨(remapLine old new l).1 :: (processLines old new ls).outLines,
            (processLines old new ls).lineCount + 1,
            (if (remapLine old new l).2 then (processLines old new ls).changedCount + 1
             else (processLines old new ls).changedCount),
            (if (remapLine old new l).2 then (processLines old new ls).unchangedCount
             else (processLines old new ls).unchangedCount + 1)⟩ := rfl

theorem processLines_count (old new : List String) : ∀ ls : List String,
    (processLines old new ls).lineCount =
      (processLines old new ls).changedCount + (processLines old new ls).unchangedCount
  | [] => rfl
  | l :: ls => by
    rw [processLines_cons]
    by_cases h : isBlank l
    · rw [if_pos h]
      exact processLines_count old new ls
    · rw [if_neg h]
      have ih := processLines_count old new ls
      by_cases hc : (remapLine old new l).2 <;> simp [hc] <;> omega

theorem processLines_lineCount (old new : List String) : ∀ ls : List String,
    (processLines old new ls).lineCount = (ls.filter (fun l => !isBlank l)).length
  | [] => rfl
  | l :: ls => by
    rw [processLines_cons]
    by_cases h : isBlank l
    · rw [if_pos h]
      rw [processLines_lineCount old new ls]
      simp [List.filter_cons, h]
    · rw [if_neg h]
      have ih := processLines_lineCount old new ls
      simp only [List.filter_cons]
      have hb : isBlank l = false := by
        cases hx : isBlank l
        · rfl
        · exact absurd hx h
      simp [hb, ih]

theorem remapDir_cons (old new : List String) (name : String) (lines : List String)
    (fs : List (String × List String)) :
    remapDir old new ((name, lines) :: fs) =
      ((name, (processLines old new lines).outLines) :: (remapDir old new fs).1,
        ⟨(remapDir old new fs).2.files + 1,
         (remapDir old new fs).2.lines + (processLines old new lines).lineCount,
         (remapDir old new fs).2.changed + (processLines old new lines).changedCount,
         (remapDir old new fs).2.unchanged + (processLines old new lines).unchangedCount⟩) := rfl

theorem remapDir_stats (old new : List String) : ∀ fs : List (String × List String),
    (remapDir old new fs).2.lines =
      (remapDir old new fs).2.changed + (remapDir old new fs).2.unchanged ∧
    (remapDir old new fs).2.lines = countNonBlank fs ∧
    (remapDir old new fs).2.files = fs.length
  | [] => by refine ⟨rfl, rfl, rfl⟩
  | (name, lines) :: fs => by
    obtain ⟨ih1, ih2, ih3⟩ := remapDir_stats old new fs
    rw [remapDir_cons]
    refine ⟨?_, ?_, ?_⟩
    · have := processLines_count old new lines
      simp only
      omega
    · have := processLines_lineCount old new lines
      show (remapDir old new fs).2.lines + (processLines old new lines).lineCount =
        countNonBlank ((name, lines) :: fs)
      rw [show countNonBlank ((name, lines) :: fs) =
          (lines.filter (fun l => !isBlank l)).length + countNonBlank fs by
        simp [countNonBlank]]
      omega
    · simp only [List.length_cons]
      omega

theorem processLines_stable (old new : List String) : ∀ ls : List String,
    (∀ l ∈ ls, isBlank l = false → lineOk old new l = true) →
    processLines new new (processLines old new ls).outLines =
      ⟨(processLines old new ls).outLines, (processLines old new ls).lineCount, 0,
        (processLines old new ls).lineCount⟩
  | [], _ => rfl
  | l :: ls, h => by
    have ih := processLines_stable old new ls (fun u hu => h u (by simp [hu]))
    rw [processLines_cons old new l ls]
    by_cases hb : isBlank l
    · rw [if_pos hb]
      exact ih
    · rw [if_neg hb]
      have hbf : isBlank l = false := by
        cases hx : isBlank l
        · rfl
        · exact absurd hx hb
      have hok := h l (by simp) hbf
      obtain ⟨hstep, hnb⟩ := remapLine_step_stable old new l hok
      simp only
      rw [processLines_cons new new (remapLine old new l).1
        (processLines old new ls).outLines]
      rw [if_neg (by rw [hnb]; simp)]
      rw [ih, hstep]
      simp

theorem remapDir_stable (old new : List String) : ∀ fs : List (String × List String),
    (∀ f ∈ fs, ∀ l ∈ f.2, isBlank l = false → lineOk old new l = true) →
    (remapDir new new (remapDir old new fs).1).1 = (remapDir old new fs).1 ∧
    (remapDir new new (remapDir old new fs).1).2.changed = 0
  | [], _ => ⟨rfl, rfl⟩
  | (name, lines) :: fs, h => by
    obtain ⟨ih1, ih2⟩ := remapDir_stable old new fs (fun f hf => h f (by simp [hf]))
    have hstable := processLines_stable old new lines
      (fun l hl => h (name, lines) (by simp) l hl)
    rw [remapDir_cons old new name lines fs]
    simp only
    rw [remapDir_cons new new name (processLines old new lines).outLines
      (remapDir old new fs).1]
    rw [hstable]
    simp [ih1, ih2]

/-! ## Lemmas about filesystem effects -/

theorem fsLookup_cons_ne (e : (String × String) × List String) (fs : FSys)
    (k' : String × String) (h : ¬ e.1 = k') :
    fsLookup (e :: fs) k' = fsLookup fs k' := by
  unfold fsLookup
  rw [List.find?_cons]
  rw [show (decide (e.1 = k')) = false by simpa using h]

theorem fsLookup_cons_eq (e : (String × String) × List String) (fs : FSys)
    (k' : String × String) (h : e.1 = k') :
    fsLookup (e :: fs) k' = some e.2 := by
  unfold fsLookup
  rw [List.find?_cons]
  rw [show (decide (e.1 = k')) = true by simpa using h]
  rfl

theorem fsLookup_fsErase_ne : ∀ (fs : FSys) (k k' : String × String), k' ≠ k →
    fsLookup (fsErase fs k) k' = fsLookup fs k'
  | [], _, _, _ => rfl
  | e :: fs, k, k', h => by
    show fsLookup (List.filter (fun e => decide (e.1 ≠ k)) (e :: fs)) k' = _
    rw [List.filter_cons]
    by_cases he : e.1 = k
    · rw [if_neg (by simp [he])]
      rw [fsLookup_cons_ne e fs k' (fun hc => h (hc.symm.trans he))]
      exact fsLookup_fsErase_ne fs k k' h
    · rw [if_pos (by simp [he])]
      by_cases hk : e.1 = k'
      · rw [fsLookup_cons_eq e _ k' hk, fsLookup_cons_eq e fs k' hk]
      · rw [fsLookup_cons_ne e _ k' hk, fsLookup_cons_ne e fs k' hk]
        exact fsLookup_fsErase_ne fs k k' h

theorem fsLookup_fsWrite_ne (fs : FSys) (k : String × String) (v : List String)
    (k' : String × String) (h : k' ≠ k) :
    fsLookup (fsWrite fs k v) k' = fsLookup fs k' := by
  show fsLookup ((k, v) :: fsErase fs k) k' = _
  rw [fsLookup_cons_ne (k, v) _ k' (fun hc => h hc.symm)]
  exact fsLookup_fsErase_ne fs k k' h

theorem fsLookup_copyfold (dst L n : String) (hdst : dst ≠ L) :
    ∀ (entries : FSys) (acc : FSys),
    fsLookup (entries.foldl (fun acc e => fsWrite acc (dst, e.1.2) e.2) acc) (L, n) =
      fsLookup acc (L, n)
  | [], acc => rfl
  | e :: es, acc => by
    rw [List.foldl_cons]
    rw [fsLookup_copyfold dst L n hdst es _]
    refine fsLookup_fsWrite_ne acc (dst, e.1.2) e.2 (L, n) ?_
    intro hc
    exact hdst (congrArg Prod.fst hc).symm

theorem applyEffect_avoids (fs : FSys) (e : Effect) (L n : String)
    (h : effAvoids L e) :
    fsLookup (applyEffect fs e) (L, n) = fsLookup fs (L, n) := by
  cases e with
  | mkdirp d => rfl
  | copyTree src dst =>
    exact fsLookup_copyfold dst L n h (dirEntries fs src) fs
  | writeFile d nm v =>
    refine fsLookup_fsWrite_ne fs (d, nm) v (L, n) ?_
    intro hc
    exact h (congrArg Prod.fst hc).symm

theorem applyEffects_avoids (L : String) : ∀ (es : List Effect),
    (∀ e ∈ es, effAvoids L e) → ∀ (fs : FSys) (n : String),
    fsLookup (applyEffects fs es) (L, n) = fsLookup fs (L, n)
  | [], _, fs, n => rfl
  | e :: es, h, fs, n => by
    show fsLookup (applyEffects (applyEffect fs e) es) (L, n) = _
    rw [applyEffects_avoids L es (fun x hx => h x (by simp [hx])) (applyEffect fs e) n]
    exact applyEffect_avoids fs e L n (h e (by simp))

theorem append_backup_ne (s : String) : s ++ "_backup" ≠ s := by
  intro h
  have hd := congrArg String.data h
  rw [String.data_append] at hd
  have := congrArg List.length hd
  simp at this

theorem remap_by_name_effects_avoid (labelsName outName : String) (labelsPresent : Bool)
    (labelFiles : List (String × List String)) (createBackup backupExists : Bool)
    (oldCls newCls : Option (List String)) (hout : outName ≠ labelsName) :
    ∀ e ∈ (remap_by_name labelsName outName labelsPresent labelFiles
        createBackup backupExists oldCls newCls).effects, effAvoids labelsName e := by
  intro e he
  unfold remap_by_name at he
  cases labelsPresent with
  | false => simp at he
  | true =>
    rw [if_neg (by simp)] at he
    have hmk : effAvoids labelsName (Effect.mkdirp outName) := trivial
    have hcp : effAvoids labelsName
        (Effect.copyTree labelsName (labelsName ++ "_backup")) :=
      append_backup_ne labelsName
    have he2 : ∀ x ∈ (if createBackup && !backupExists then
        [Effect.copyTree labelsName (labelsName ++ "_backup")] else ([] : List Effect)),
        effAvoids labelsName x := by
      intro x hx
      by_cases hb : (createBackup && !backupExists) = true
      · rw [if_pos hb] at hx
        rw [List.mem_singleton.mp hx]
        exact hcp
      · rw [if_neg hb] at hx
        simp at hx
    cases oldCls with
    | none =>
      simp only [List.mem_append, List.mem_singleton] at he
      rcases he with (he | he)
      · rw [he]; exact hmk
      · exact he2 e he
    | some old =>
      cases newCls with
      | none =>
        simp only [List.mem_append, List.mem_singleton] at he
        rcases he with (he | he)
        · rw [he]; exact hmk
        · exact he2 e he
      | some new =>
        simp only [List.mem_append, List.mem_singleton, List.mem_map] at he
        rcases he with ((he | he) | he) | he
        · rw [he]; exact hmk
        · exact he2 e he
        · obtain ⟨fc, _, hfc⟩ := he
          rw [← hfc]
          exact hout
        · rw [he]
          exact hout

/-! ## Lemmas about the renamer -/

theorem targetName_data (pfx : String) (s w i : Nat) (f : String) :
    (targetName pfx s w i f).data =
      pfx.data ++ "_".data ++ (zfill (natStr (s + i)) w).data ++ (pySuffix f).data := by
  unfold targetName
  rw [String.data_append, String.data_append, String.data_append]

theorem targetName_inj {pfx : String} {s w i j : Nat} {fi fj : String}
    (hi : (natStr (s + i)).data.length ≤ w) (hj : (natStr (s + j)).data.length ≤ w)
    (h : targetName pfx s w i fi = targetName pfx s w j fj) : i = j := by
  have hd := congrArg String.data h
  rw [targetName_data, targetName_data] at hd
  simp only [List.append_assoc] at hd
  have h1 := List.append_cancel_left hd
  have h2 := List.append_cancel_left h1
  have hlen : (zfill (natStr (s + i)) w).data.length =
      (zfill (natStr (s + j)) w).data.length := by
    rw [zfill_length _ _ hi, zfill_length _ _ hj]
  have h3 := (List.append_inj h2 hlen).1
  have := zfill_natStr_inj h3
  omega

theorem orderedInsertStr_perm (a : String) : ∀ l : List String,
    (orderedInsertStr a l).Perm (a :: l)
  | [] => List.Perm.refl _
  | b :: bs => by
    unfold orderedInsertStr
    by_cases h : strLeb a b
    · rw [if_pos h]
    · rw [if_neg h]
      exact ((orderedInsertStr_perm a bs).cons b).trans (List.Perm.swap a b bs)

theorem sortStrings_perm : ∀ l : List String, (sortStrings l).Perm l
  | [] => List.Perm.refl _
  | a :: as =>
    (orderedInsertStr_perm a (sortStrings as)).trans ((sortStrings_perm as).cons a)

theorem targetsFrom_length (pfx : String) (s w : Nat) : ∀ (k : Nat) (l : List String),
    (targetsFrom pfx s w k l).length = l.length
  | _, [] => rfl
  | k, f :: fs => by
    show (targetsFrom pfx s w (k + 1) fs).length + 1 = fs.length + 1
    rw [targetsFrom_length pfx s w (k + 1) fs]

theorem renameLoop_cons_eq (pfx : String) (s w : Nat) (dryRun : Bool) (old : String)
    (rest : List String) (i : Nat) (cur : List String) (cnt : Nat) :
    renameLoop pfx s w dryRun (old :: rest) i cur cnt =
      if targetName pfx s w i old ∈ cur && targetName pfx s w i old ≠ old then
        renameLoop pfx s w dryRun rest (i + 1) cur cnt
      else if dryRun then
        renameLoop pfx s w dryRun rest (i + 1) cur cnt
      else
        renameLoop pfx s w dryRun rest (i + 1)
          (targetName pfx s w i old :: cur.erase old) (cnt + 1) := rfl

theorem renameLoop_perm (pfx : String) (s w : Nat) :
    ∀ (rem : List String) (k : Nat) (T cur : List String) (cnt : Nat),
    rem.Nodup →
    (∀ m, m < rem.length → (natStr (s + (k + m))).data.length ≤ w) →
    (∀ m (hm : m < rem.length), targetName pfx s w (k + m) (rem.get ⟨m, hm⟩) ∉ T) →
    (∀ m (hm : m < rem.length), ∀ x ∈ rem,
        targetName pfx s w (k + m) (rem.get ⟨m, hm⟩) = x → x = rem.get ⟨m, hm⟩) →
    (∀ x ∈ rem, x ∉ T) →
    cur.Perm (T ++ rem) →
    (renameLoop pfx s w false rem k cur cnt).1.Perm (T ++ targetsFrom pfx s w k rem)
  | [], k, T, cur, cnt, _, _, _, _, _, hperm => by
    show cur.Perm (T ++ targetsFrom pfx s w k [])
    show cur.Perm (T ++ [])
    simpa using hperm
  | old :: rest, k, T, cur, cnt, hnd, hlen, hT, hself, hdisj, hperm => by
    obtain ⟨holdrest, hndrest⟩ := List.nodup_cons.mp hnd
    have hself0 : ∀ x ∈ old :: rest, targetName pfx s w k old = x → x = old := by
      intro x hx heq
      have h0 : (k : Nat) + 0 = k := by omega
      have := hself 0 (by simp) x hx (by
        show targetName pfx s w (k + 0) ((old :: rest).get ⟨0, by simp⟩) = x
        rw [h0]
        exact heq)
      exact this
    have hT0 : targetName pfx s w k old ∉ T := by
      have h0 : (k : Nat) + 0 = k := by omega
      have := hT 0 (by simp)
      rw [h0] at this
      exact this
    suffices hgoal : (renameLoop pfx s w false rest (k + 1)
        (targetName pfx s w k old :: cur.erase old) (cnt + 1)).1.Perm
        (T ++ targetsFrom pfx s w k (old :: rest)) by
      rw [renameLoop_cons_eq]
      by_cases hmem : targetName pfx s w k old ∈ cur
      · have hx := (hperm.mem_iff).mp hmem
        rcases List.mem_append.mp hx with hx | hx
        · exact absurd hx hT0
        · have heqold : targetName pfx s w k old = old := hself0 _ hx rfl
          rw [if_neg (by simp [heqold])]
          rw [if_neg (by simp)]
          exact hgoal
      · rw [if_neg (by simp [hmem])]
        rw [if_neg (by simp)]
        exact hgoal
    -- premises for the recursive call with T' = T ++ [targetName pfx s w k old]
    have hlen0 : (natStr (s + k)).data.length ≤ w := by
      have := hlen 0 (by simp)
      rw [show k + 0 = k by omega] at this
      exact this
    have hlen' : ∀ m, m < rest.length → (natStr (s + (k + 1 + m))).data.length ≤ w := by
      intro m hm
      have := hlen (m + 1) (by simp; omega)
      rw [show k + (m + 1) = k + 1 + m by omega] at this
      exact this
    have hgetsucc : ∀ (m : Nat) (hm : m < rest.length),
        (old :: rest).get ⟨m + 1, by simp; omega⟩ = rest.get ⟨m, hm⟩ := fun m hm => rfl
    have hT' : ∀ m (hm : m < rest.length),
        targetName pfx s w (k + 1 + m) (rest.get ⟨m, hm⟩) ∉
          T ++ [targetName pfx s w k old] := by
      intro m hm hc
      rcases List.mem_append.mp hc with hc | hc
      · have := hT (m + 1) (by simp; omega)
        rw [show k + (m + 1) = k + 1 + m by omega, hgetsucc m hm] at this
        exact this hc
      · have heq := List.mem_singleton.mp hc
        have := targetName_inj (hlen' m hm) hlen0 heq
        omega
    have hself' : ∀ m (hm : m < rest.length), ∀ x ∈ rest,
        targetName pfx s w (k + 1 + m) (rest.get ⟨m, hm⟩) = x → x = rest.get ⟨m, hm⟩ := by
      intro m hm x hx heq
      have := hself (m + 1) (by simp; omega) x (by simp [hx])
      rw [show k + (m + 1) = k + 1 + m by omega, hgetsucc m hm] at this
      exact this heq
    have hdisj' : ∀ x ∈ rest, x ∉ T ++ [targetName pfx s w k old] := by
      intro x hx hc
      rcases List.mem_append.mp hc with hc | hc
      · exact hdisj x (by simp [hx]) hc
      · have heq := List.mem_singleton.mp hc
        have := hself0 x (by simp [hx]) heq.symm
        subst this
        exact holdrest hx
    have holdcur : old ∈ cur := (hperm.mem_iff).mpr (List.mem_append.mpr (Or.inr (by simp)))
    have herase : (T ++ old :: rest).erase old = T ++ rest := by
      rw [List.erase_append_right _ (fun hc => hdisj old (by simp) hc)]
      rw [List.erase_cons_head]
    have hperm' : (targetName pfx s w k old :: cur.erase old).Perm
        ((T ++ [targetName pfx s w k old]) ++ rest) := by
      have h1 : (cur.erase old).Perm ((T ++ old :: rest).erase old) := hperm.erase old
      rw [herase] at h1
      have h2 : (targetName pfx s w k old :: cur.erase old).Perm
          (T ++ targetName pfx s w k old :: rest) :=
        (h1.cons _).trans List.perm_middle.symm
      rw [List.append_assoc]
      exact h2
    have hres := renameLoop_perm pfx s w rest (k + 1)
      (T ++ [targetName pfx s w k old]) (targetName pfx s w k old :: cur.erase old)
      (cnt + 1) hndrest hlen' hT' hself' hdisj' hperm'
    rw [show targetsFrom pfx s w k (old :: rest) =
        targetName pfx s w k old :: targetsFrom pfx s w (k + 1) rest from rfl]
    rw [show T ++ targetName pfx s w k old :: targetsFrom pfx s w (k + 1) rest =
        (T ++ [targetName pfx s w k old]) ++ targetsFrom pfx s w (k + 1) rest by
      rw [List.append_assoc]
      rfl]
    exact hres

theorem rename_images_eq (files : List String) (s : Nat) (pfx : String)
    (h : (files.filter isImageFile).isEmpty = false) :
    rename_images files s pfx false =
      renameLoop pfx s (renamePadding s (sortImages files).length) false
        (sortImages files) 0 files 0 := by
  unfold rename_images
  rw [if_neg (by simp [h])]

theorem remap_by_name_ok (labelsName outName : String) (labelsPresent : Bool)
    (labelFiles : List (String × List String)) (createBackup backupExists : Bool)
    (oldCls newCls : Option (List String)) (st : Stats)
    (h : (remap_by_name labelsName outName labelsPresent labelFiles
        createBackup backupExists oldCls newCls).result = Except.ok st) :
    ∃ old new, oldCls = some old ∧ newCls = some new ∧
      st = (remapDir old new labelFiles).2 := by
  unfold remap_by_name at h
  cases labelsPresent with
  | false =>
    rw [if_pos rfl] at h
    exact absurd h (by simp)
  | true =>
    rw [if_neg (by simp)] at h
    cases oldCls with
    | none => exact absurd h (by simp)
    | some old =>
      cases newCls with
      | none => exact absurd h (by simp)
      | some new =>
        refine ⟨old, new, rfl, rfl, ?_⟩
        have := Except.ok.inj h
        exact this.symm

/-! ## Claim theorems -/

/-- Claim C1: for every label line with at least 5 whitespace-separated
tokens whose first token parses as an integer that is a valid position in
the old class list, and whose resolved name occurs in the new class list,
the remap engine emits a line whose first token is the decimal text of that
name's index in the new list (the last occurrence when the name is
duplicated) and whose remaining tokens are the original tokens, in order,
joined with single spaces. -/
theorem C1_valid_line_remapped (old new : List String) (ln p : String)
    (rest : List String) (oi : Int) (name : String) (ni : Nat)
    (hsplit : pySplit ln = p :: rest)
    (hlen : 5 ≤ (p :: rest).length)
    (hparse : pyParseInt p = some oi)
    (hnn : 0 ≤ oi)
    (hvalid : old.get? oi.toNat = some name)
    (hni : new.get? ni = some name)
    (hlast : ∀ j, ni < j → new.get? j ≠ some name) :
    (remapLine old new ln).1 = pyJoin (natStr ni :: rest) := by
  have hget : listGetInt old oi = some name := by
    unfold listGetInt
    rw [if_pos hnn]
    exact hvalid
  have hidx : nameToNewIdx new name = some ni := nameToNewIdx_of_last new name ni hni hlast
  rw [remapLine_rewrite old new ln p rest oi name ni hsplit (by omega) hparse hget hidx]

/-- Witness for C1: the spec's own scenario (old index 2 = "bird", new index
of "bird" = 1). -/
theorem C1_valid_line_remapped_witness :
    (remapLine ["cat", "dog", "bird"] ["dog", "bird", "cat"] "2 0.1 0.2 0.3 0.4").1
      = "1 0.1 0.2 0.3 0.4" := by
  have h := C1_valid_line_remapped ["cat", "dog", "bird"] ["dog", "bird", "cat"]
    "2 0.1 0.2 0.3 0.4" "2" ["0.1", "0.2", "0.3", "0.4"] 2 "bird" 1
    (by decide) (by decide) (by decide) (by decide) (by decide) (by decide)
    (by
      intro j hj
      rcases Nat.lt_or_ge j 3 with h3 | h3
      · interval_cases j
        decide
      · rw [List.get?_eq_none.mpr (by simpa using h3)]
        simp)
  exact h.trans (by decide)

/-- Claim C2: every non-blank label line that fails a validity condition
(fewer than 5 tokens, unparseable first token, index not a valid position in
the old list, or name absent from the new list) is emitted byte-identical
to the input line. -/
theorem C2_invalid_line_unchanged (old new : List String) (ln : String)
    (hfail : (pySplit ln).length < 5
      ∨ (∃ p rest, pySplit ln = p :: rest ∧ pyParseInt p = none)
      ∨ (∃ p rest oi, pySplit ln = p :: rest ∧ pyParseInt p = some oi ∧
          listGetInt old oi = none)
      ∨ (∃ p rest oi name, pySplit ln = p :: rest ∧ pyParseInt p = some oi ∧
          listGetInt old oi = some name ∧ nameToNewIdx new name = none)) :
    (remapLine old new ln).1 = ln := by
  rcases hfail with h | ⟨p, rest, h1, h2⟩ | ⟨p, rest, oi, h1, h2, h3⟩
    | ⟨p, rest, oi, name, h1, h2, h3, h4⟩
  · rw [remapLine_short old new ln h]
  · rw [remapLine_noparse old new ln p rest h1 h2]
  · rw [remapLine_noname old new ln p rest oi h1 h2 h3]
  · rw [remapLine_nonew old new ln p rest oi name h1 h2 h3 h4]

/-- Witness for C2: the spec's scenario with "bird" missing from the new
list; the line passes through byte-identical. -/
theorem C2_invalid_line_unchanged_witness :
    (remapLine ["cat", "dog", "bird"] ["dog", "cat"] "2 0.1 0.2 0.3 0.4").1
      = "2 0.1 0.2 0.3 0.4" :=
  C2_invalid_line_unchanged ["cat", "dog", "bird"] ["dog", "cat"] "2 0.1 0.2 0.3 0.4"
    (Or.inr (Or.inr (Or.inr ⟨"2", ["0.1", "0.2", "0.3", "0.4"], 2, "bird",
      by decide, by decide, by decide, by decide⟩)))

/-- Claim C3 (code bug): `main` declares an `--extensions` option documented
as "Additional file extensions to consider as images" but never passes it to
`rename_images` (line 139), which uses only its hardcoded set. Evaluating
the code at the failing input: the user passes ".xyz" and the directory
contains only "photo.xyz", yet the file is not recognized and nothing is
renamed. -/
theorem C3_extensions_ignored :
    rename_main ["photo.xyz"] 1 "image" false [".xyz"] = (["photo.xyz"], 0) ∧
    isImageFile "photo.xyz" = false ∧
    ".xyz" ∉ defaultCliExtensions ∧ ".xyz" ∉ image_extensions := by decide

/-- Claim C4 (code bug): `renamed_count` is incremented only in the non-dry
branch (lines 73-79), so the dry-run summary always reports 0. Evaluating
the code at the failing input: a directory with a single image file; the
dry run reports 0 while the real run renames 1 file. -/
theorem C4_dry_run_count_zero :
    rename_images ["a.jpg"] 1 "image" true = (["a.jpg"], 0) ∧
    rename_images ["a.jpg"] 1 "image" false = (["image_1.jpg"], 1) := by decide

/-- Counterexample to C5 as stated: with files "a.jpg" and "image_1.jpg",
start 1 and the default prefix, the first file's target "image_1.jpg"
collides with an existing file and is skipped, so the final directory is
{"a.jpg", "image_2.jpg"}, not the claimed target set
{"image_1.jpg", "image_2.jpg"}. -/
theorem C5_counterexample :
    ¬ (rename_images ["a.jpg", "image_1.jpg"] 1 "image" false).1.Perm
        (targetsFrom "image" 1
          (renamePadding 1 (sortImages ["a.jpg", "image_1.jpg"]).length) 0
          (sortImages ["a.jpg", "image_1.jpg"])) := by decide

/-- Claim C5 (amended): for a directory whose files are pairwise distinct and
all carry recognized image extensions, PROVIDED no target name coincides with
an original filename other than its own source (the skip-on-collision branch
of lines 69-71 never fires), a non-dry run leaves exactly N files, which are
precisely `<prefix>_<n zero-padded to width><ext>` for n in
[start, start+N-1] assigned in lexicographically sorted order, where width is
the digit count of start+N-1. -/
theorem C5_amended_rename_complete (files : List String) (s : Nat) (pfx : String)
    (hnd : files.Nodup)
    (himg : ∀ f ∈ files, isImageFile f = true)
    (hcol : ∀ m (hm : m < (sortImages files).length), ∀ x ∈ files,
        targetName pfx s (renamePadding s (sortImages files).length) m
          ((sortImages files).get ⟨m, hm⟩) = x →
        x = (sortImages files).get ⟨m, hm⟩) :
    (rename_images files s pfx false).1.Perm
      (targetsFrom pfx s (renamePadding s (sortImages files).length) 0
        (sortImages files)) ∧
    (rename_images files s pfx false).1.length = files.length := by
  have hfilter : files.filter isImageFile = files := List.filter_eq_self.mpr himg
  by_cases hemp : (files.filter isImageFile).isEmpty = true
  · rw [hfilter] at hemp
    have hfe : files = [] := by
      cases files with
      | nil => rfl
      | cons a as => exact absurd hemp (by simp)
    subst hfe
    exact ⟨List.Perm.refl _, rfl⟩
  · have hempf : (files.filter isImageFile).isEmpty = false := by
      cases hx : (files.filter isImageFile).isEmpty
      · rfl
      · exact absurd hx hemp
    have heq := rename_images_eq files s pfx hempf
    have hpermsort : (sortImages files).Perm files := by
      unfold sortImages
      rw [hfilter]
      exact sortStrings_perm files
    have hndsort : (sortImages files).Nodup := (hpermsort.nodup_iff).mpr hnd
    have hfne : files ≠ [] := by
      intro hfe
      rw [hfilter, hfe] at hempf
      exact absurd hempf (by simp)
    have hNpos : 0 < (sortImages files).length := by
      rw [hpermsort.length_eq]
      exact List.length_pos.mpr hfne
    have hlenbound : ∀ m, m < (sortImages files).length →
        (natStr (s + (0 + m))).data.length ≤
          renamePadding s (sortImages files).length := by
      intro m hm
      rw [show (0 : Nat) + m = m by omega]
      show _ ≤ (natStr (s + (sortImages files).length - 1)).length
      exact natStr_length_mono (by omega)
    have hresult := renameLoop_perm pfx s (renamePadding s (sortImages files).length)
      (sortImages files) 0 [] files 0 hndsort hlenbound
      (by intro m hm; simp)
      (by
        intro m hm x hx heq
        rw [show (0 : Nat) + m = m by omega] at heq
        exact hcol m hm x ((hpermsort.mem_iff).mp hx) heq)
      (by intro x hx; simp)
      (by simpa using hpermsort.symm)
    constructor
    · rw [heq]
      simpa using hresult
    · rw [heq]
      have hlen1 := hresult.length_eq
      simp only [List.nil_append] at hlen1
      rw [hlen1, targetsFrom_length, hpermsort.length_eq]

/-- Witness for C5 (amended): two image files, start 1, prefix "img". -/
theorem C5_amended_rename_complete_witness :
    (rename_images ["b.jpg", "a.png"] 1 "img" false).1.Perm
      (targetsFrom "img" 1
        (renamePadding 1 (sortImages ["b.jpg", "a.png"]).length) 0
        (sortImages ["b.jpg", "a.png"])) ∧
    (rename_images ["b.jpg", "a.png"] 1 "img" false).1.length =
      (["b.jpg", "a.png"] : List String).length :=
  C5_amended_rename_complete ["b.jpg", "a.png"] 1 "img"
    (by decide) (by decide) (by decide)

/-- Counterexample to C6 as stated: a line whose index 3 is invalid for the
one-entry old list passes through with its double space intact; re-running
on the output with the four-entry new list as both old and new finds the
index valid, normalizes the whitespace, and counts a change. -/
theorem C6_counterexample :
    (remapDir ["a", "b", "c", "d"] ["a", "b", "c", "d"]
        ((remapDir ["a"] ["a", "b", "c", "d"]
            [("a.txt", ["3  0.1 0.2 0.3 0.4"])]).1
          ++ [("classes_mapped.txt", ["a", "b", "c", "d"])])).2.changed ≠ 0 := by
  decide

/-- Claim C6 (amended): idempotence holds PROVIDED every non-blank line of
every input label file satisfies all validity conditions with respect to
(old, new): re-running the engine on the remapped label files with the new
class list as both old and new list changes no line — every output file is
byte-identical to its input and the changed counter is zero. -/
theorem C6_amended_idempotent (old new : List String)
    (fs : List (String × List String))
    (h : ∀ f ∈ fs, ∀ l ∈ f.2, isBlank l = false → lineOk old new l = true) :
    (remapDir new new (remapDir old new fs).1).1 = (remapDir old new fs).1 ∧
    (remapDir new new (remapDir old new fs).1).2.changed = 0 :=
  remapDir_stable old new fs h

/-- Witness for C6 (amended): one valid line, remapped from a one-entry old
list into a two-entry new list; the second run changes nothing. -/
theorem C6_amended_idempotent_witness :
    (remapDir ["dog", "cat"] ["dog", "cat"]
        (remapDir ["cat"] ["dog", "cat"] [("a.txt", ["0 0.1 0.2 0.3 0.4"])]).1).1
      = (remapDir ["cat"] ["dog", "cat"] [("a.txt", ["0 0.1 0.2 0.3 0.4"])]).1 ∧
    (remapDir ["dog", "cat"] ["dog", "cat"]
        (remapDir ["cat"] ["dog", "cat"] [("a.txt", ["0 0.1 0.2 0.3 0.4"])]).1).2.changed
      = 0 :=
  C6_amended_idempotent ["cat"] ["dog", "cat"] [("a.txt", ["0 0.1 0.2 0.3 0.4"])]
    (by decide)

/-- Counterexample to C7 as stated: old list ["cat","cat","dog"] and new
list ["dog","cat"] have identical name sets; the line "0 0.1 0.2 0.3 0.4"
is changed by the forward pass (cat goes to new index 1), but the backward
pass maps "cat" to the LAST occurrence in old (index 1), not the original
index 0. -/
theorem C7_counterexample :
    (∀ n ∈ ["cat", "cat", "dog"], n ∈ (["dog", "cat"] : List String)) ∧
    (∀ n ∈ ["dog", "cat"], n ∈ (["cat", "cat", "dog"] : List String)) ∧
    (remapLine ["cat", "cat", "dog"] ["dog", "cat"] "0 0.1 0.2 0.3 0.4").2 = true ∧
    (remapLine ["dog", "cat"] ["cat", "cat", "dog"]
        (remapLine ["cat", "cat", "dog"] ["dog", "cat"] "0 0.1 0.2 0.3 0.4").1).1
      = "1 0.1 0.2 0.3 0.4" := by decide

/-- Claim C7 (amended): the round trip restores the original class index of
every line changed by the forward pass PROVIDED the old class list has no
duplicate names: remapping with (old, new) and then (new, old) yields the
original index rendered in decimal, with the tokens in their original
order. -/
theorem C7_amended_roundtrip (old new : List String) (ln : String)
    (hnd : old.Nodup)
    (hch : (remapLine old new ln).2 = true) :
    ∃ p rest oi, pySplit ln = p :: rest ∧ pyParseInt p = some oi ∧
      (remapLine new old (remapLine old new ln).1).1
        = pyJoin (natStr oi.toNat :: rest) := by
  obtain ⟨p, rest, oi, name, ni, hsplit, hlen, hparse, hget, hni, hfst, hne⟩ :=
    remapLine_changed_inv old new ln hch
  have hrest : ∀ t ∈ rest, t.data ≠ [] ∧ ∀ c ∈ t.data, pyIsSpace c = false := by
    intro t ht
    exact pySplit_tokens ln t (by rw [hsplit]; simp [ht])
  have htoks : ∀ t ∈ natStr ni :: rest, t.data ≠ [] ∧ ∀ c ∈ t.data, pyIsSpace c = false := by
    intro t ht
    rcases List.mem_cons.mp ht with h1 | h1
    · subst h1
      exact ⟨natStr_ne_nil ni, fun c hc => (natStr_chars ni c hc).2.2.1⟩
    · exact hrest t h1
  have hsplit2 : pySplit (pyJoin (natStr ni :: rest)) = natStr ni :: rest :=
    pySplit_join _ htoks
  have hget2 : listGetInt new ((ni : Nat) : Int) = some name := by
    unfold listGetInt
    rw [if_pos (by omega)]
    rw [show ((ni : Nat) : Int).toNat = ni from rfl]
    exact nameToNewIdx_get? new name ni hni
  have hoi : 0 ≤ oi ∧ old.get? oi.toNat = some name := by
    unfold listGetInt at hget
    by_cases h0 : 0 ≤ oi
    · rw [if_pos h0] at hget
      exact ⟨h0, hget⟩
    · rw [if_neg h0] at hget
      exact absurd hget (by simp)
  have hniold : nameToNewIdx old name = some oi.toNat :=
    nameToNewIdx_of_nodup old name oi.toNat hnd hoi.2
  have hlen2 : ¬ (natStr ni :: rest).length < 5 := by
    simp only [List.length_cons] at hlen ⊢
    exact hlen
  have hback := remapLine_rewrite new old (pyJoin (natStr ni :: rest)) (natStr ni)
    rest ((ni : Nat) : Int) name oi.toNat hsplit2 hlen2 (pyParseInt_natStr ni)
    hget2 hniold
  refine ⟨p, rest, oi, hsplit, hparse, ?_⟩
  rw [hfst, hback]

/-- Witness for C7 (amended): the spec scenario round-trips back to index 2. -/
theorem C7_amended_roundtrip_witness :
    ∃ p rest oi, pySplit "2 0.1 0.2 0.3 0.4" = p :: rest ∧
      pyParseInt p = some oi ∧
      (remapLine ["dog", "bird", "cat"] ["cat", "dog", "bird"]
          (remapLine ["cat", "dog", "bird"] ["dog", "bird", "cat"]
            "2 0.1 0.2 0.3 0.4").1).1
        = pyJoin (natStr oi.toNat :: rest) :=
  C7_amended_roundtrip ["cat", "dog", "bird"] ["dog", "bird", "cat"]
    "2 0.1 0.2 0.3 0.4" (by decide) (by decide)

/-- Counterexample to C8 as stated: with the output directory equal to the
label directory, the engine overwrites the source file "a.txt" (its double
space is normalized away), so the label directory does not keep its
original content. -/
theorem C8_counterexample :
    fsLookup (applyEffects [(("labels", "a.txt"), ["0  0.1 0.2 0.3 0.4"])]
        (remap_by_name "labels" "labels" true
          [("a.txt", ["0  0.1 0.2 0.3 0.4"])] true false
          (some ["cat"]) (some ["cat"])).effects)
      ("labels", "a.txt") ≠ some ["0  0.1 0.2 0.3 0.4"] := by decide

/-- Claim C8 (amended): PROVIDED the output directory differs from the label
directory, the engine writes only into the output directory and the backup
directory, and after the run every file of the label directory has its
original content. -/
theorem C8_amended_source_preserved (labelsName outName : String)
    (labelsPresent : Bool) (labelFiles : List (String × List String))
    (createBackup backupExists : Bool) (oldCls newCls : Option (List String))
    (hout : outName ≠ labelsName) (fs : FSys) (n : String) :
    fsLookup (applyEffects fs (remap_by_name labelsName outName labelsPresent
        labelFiles createBackup backupExists oldCls newCls).effects)
      (labelsName, n) = fsLookup fs (labelsName, n) :=
  applyEffects_avoids labelsName _
    (remap_by_name_effects_avoid labelsName outName labelsPresent labelFiles
      createBackup backupExists oldCls newCls hout) fs n

/-- Witness for C8 (amended): same run as the counterexample but with a
distinct output directory; the source file keeps its original content. -/
theorem C8_amended_source_preserved_witness :
    fsLookup (applyEffects [(("labels", "a.txt"), ["0  0.1 0.2 0.3 0.4"])]
        (remap_by_name "labels" "out" true
          [("a.txt", ["0  0.1 0.2 0.3 0.4"])] true false
          (some ["cat"]) (some ["cat"])).effects)
      ("labels", "a.txt") = some ["0  0.1 0.2 0.3 0.4"] := by
  have h := C8_amended_source_preserved "labels" "out" true
    [("a.txt", ["0  0.1 0.2 0.3 0.4"])] true false (some ["cat"]) (some ["cat"])
    (by decide) [(("labels", "a.txt"), ["0  0.1 0.2 0.3 0.4"])] "a.txt"
  exact h.trans (by decide)

/-- Claim C9: for every completed run, the returned statistics satisfy
lines = changed + unchanged, and lines counts exactly the non-blank lines
of the processed label files. -/
theorem C9_counter_invariant (labelsName outName : String) (labelsPresent : Bool)
    (labelFiles : List (String × List String)) (createBackup backupExists : Bool)
    (oldCls newCls : Option (List String)) (st : Stats)
    (h : (remap_by_name labelsName outName labelsPresent labelFiles
        createBackup backupExists oldCls newCls).result = Except.ok st) :
    st.lines = st.changed + st.unchanged ∧ st.lines = countNonBlank labelFiles := by
  obtain ⟨old, new, _, _, hst⟩ := remap_by_name_ok labelsName outName labelsPresent
    labelFiles createBackup backupExists oldCls newCls st h
  subst hst
  obtain ⟨h1, h2, _⟩ := remapDir_stats old new labelFiles
  exact ⟨h1, h2⟩

/-- Witness for C9: a one-file run with one non-blank and one blank line. -/
theorem C9_counter_invariant_witness :
    (⟨1, 1, 0, 1⟩ : Stats).lines = (⟨1, 1, 0, 1⟩ : Stats).changed +
      (⟨1, 1, 0, 1⟩ : Stats).unchanged ∧
    (⟨1, 1, 0, 1⟩ : Stats).lines =
      countNonBlank [("a.txt", ["0 0.1 0.2 0.3 0.4", ""])] :=
  C9_counter_invariant "labels" "out" true
    [("a.txt", ["0 0.1 0.2 0.3 0.4", ""])] true false
    (some ["cat"]) (some ["cat"]) ⟨1, 1, 0, 1⟩ rfl

/-- Claim C10: when the label directory exists but a class file is missing,
the engine raises only AFTER creating the output directory and (when backup
is requested and absent) copying the label directory to the backup: the
error result comes with exactly those filesystem effects already
performed. -/
theorem C10_effects_before_class_read (labelsName outName : String)
    (labelFiles : List (String × List String)) (createBackup backupExists : Bool)
    (oldCls newCls : Option (List String))
    (h : oldCls = none ∨ newCls = none) :
    (remap_by_name labelsName outName true labelFiles createBackup backupExists
        oldCls newCls).result = Except.error "class file not found" ∧
    (remap_by_name labelsName outName true labelFiles createBackup backupExists
        oldCls newCls).effects =
      Effect.mkdirp outName ::
        (if createBackup && !backupExists then
          [Effect.copyTree labelsName (labelsName ++ "_backup")] else []) := by
  unfold remap_by_name
  rw [if_neg (by simp)]
  cases oldCls with
  | none => exact ⟨rfl, rfl⟩
  | some old =>
    cases newCls with
    | none => exact ⟨rfl, rfl⟩
    | some new =>
      rcases h with h | h <;> exact absurd h (by simp)

/-- Witness for C10: missing old class file with backup requested and not
yet present. -/
theorem C10_effects_before_class_read_witness :
    (remap_by_name "labels" "out" true [("a.txt", ["x"])] true false none
        (some ["cat"])).result = Except.error "class file not found" ∧
    (remap_by_name "labels" "out" true [("a.txt", ["x"])] true false none
        (some ["cat"])).effects =
      Effect.mkdirp "out" ::
        (if true && !false then
          [Effect.copyTree "labels" ("labels" ++ "_backup")] else []) :=
  C10_effects_before_class_read "labels" "out" [("a.txt", ["x"])] true false
    none (some ["cat"]) (Or.inl rfl)
